import Mathlib

/-!
# usercorn: memory mapper, stack builder, syscall router and ELF symbolicator

A shallow embedding of `usercorn.go` and `loader/elf.go`.

* `uint64` values are natural numbers below `2 ^ 64`; every `uint64` addition and
  subtraction of the source is written with an explicit `% 2 ^ 64`.
* A Go `string` and a Go `[]byte` used as raw bytes are lists of byte values.
* Go's `(value, error)` results are pairs whose second component is `Option Err`.
* Diagnostic printing (`fmt.Printf`, `fmt.Println`) has no effect on the modelled state
  and is left out.
-/

set_option autoImplicit false

/-- Size of the `uint64` value space. -/
def u64 : Nat := 2 ^ 64

/-- Go `a + b` on `uint64`. -/
def add64 (a b : Nat) : Nat := (a + b) % u64

/-- Go `a - b` on `uint64` (operands below `2 ^ 64`). -/
def sub64 (a b : Nat) : Nat := (a + u64 - b) % u64

/-- Go error values, identified by their message. -/
abbrev Err := String

/-! ## `loader/elf.go` -/

namespace elf

/-- The fields of `debug/elf.Symbol` read by the loader. -/
structure Symbol where
  Name : String
  Value : Nat
  Size : Nat
deriving DecidableEq, Repr

/-- The fields of `debug/elf.File` (its `FileHeader`) read by the loader. -/
structure File where
  Class : Nat
  OSABI : Nat
  Machine : Nat
  Entry : Nat
deriving DecidableEq, Repr

def ELFCLASS32 : Nat := 1
def ELFCLASS64 : Nat := 2
def EM_386 : Nat := 3
def EM_MIPS : Nat := 8
def EM_MIPS_RS3_LE : Nat := 10
def EM_PPC : Nat := 20
def EM_PPC64 : Nat := 21
def EM_ARM : Nat := 40
def EM_X86_64 : Nat := 62
def ELFOSABI_NONE : Nat := 0
def ELFOSABI_LINUX : Nat := 3
def ELFOSABI_FREEBSD : Nat := 9

end elf

namespace loader

/-- The Go map `machineMap`, as its lookup function (`machineMap[m]` with the `ok` flag). -/
def machineMap (m : Nat) : Option String :=
  if m = elf.EM_386 then some "x86"
  else if m = elf.EM_X86_64 then some "x86_64"
  else if m = elf.EM_ARM then some "arm"
  else if m = elf.EM_MIPS then some "mipseb"
  else if m = elf.EM_MIPS_RS3_LE then some "mipsel"
  else if m = elf.EM_PPC then some "ppc"
  else if m = elf.EM_PPC64 then some "ppc64"
  else none

/-- The struct `LoaderHeader` as filled in by `NewElfLoader`. -/
structure LoaderHeader where
  arch : String
  bits : Nat
  os : String
  entry : Nat
deriving DecidableEq, Repr

/-- The struct `ElfLoader`. -/
structure ElfLoader where
  header : LoaderHeader
  file : elf.File
deriving DecidableEq, Repr

/-- The function `NewElfLoader`, from the point where `elf.NewFile` has returned `file`.
The message of the second error carries the machine number where Go prints its name. -/
def NewElfLoader (file : elf.File) : Except Err ElfLoader :=
  if file.Class = elf.ELFCLASS32 ∨ file.Class = elf.ELFCLASS64 then
    let bits := if file.Class = elf.ELFCLASS32 then 32 else 64
    match machineMap file.Machine with
    | none => .error ("Unsupported machine: " ++ toString file.Machine)
    | some machineName =>
      .ok { header := { arch := machineName, bits := bits, os := "linux", entry := file.Entry },
            file := file }
  else .error "Unknown ELF class."

/-- The Go map `nearest`, a `map[uint64][]elf.Symbol`, as a list of entries with distinct keys. -/
abbrev SymMap := List (Nat × List elf.Symbol)

/-- The statement `nearest[dist] = append(nearest[dist], sym)`. -/
def SymMap.add : SymMap → Nat → elf.Symbol → SymMap
  | [], dist, sym => [(dist, [sym])]
  | (k, v) :: rest, dist, sym =>
    if k = dist then (k, v ++ [sym]) :: rest else (k, v) :: SymMap.add rest dist sym

/-- The condition `dist > 0 && dist <= sym.Size` with `dist := addr - sym.Value`. -/
def selects (addr : Nat) (sym : elf.Symbol) : Bool :=
  decide (0 < sub64 addr sym.Value ∧ sub64 addr sym.Value ≤ sym.Size)

/-- The first loop of `Symbolicate`: the map `nearest` after all symbols were visited. -/
def nearest (syms : List elf.Symbol) (addr : Nat) : SymMap :=
  syms.foldl (fun m sym => if selects addr sym then m.add (sub64 addr sym.Value) sym else m) []

/-- Lower-case hexadecimal, the `%x` verb of `fmt.Sprintf`. -/
def hex (n : Nat) : String := String.mk (Nat.toDigits 16 n)

/-- The function `ElfLoader.Symbolicate`.  `symbols` is the result of `e.file.Symbols()`.
Go leaves the iteration order of a map unspecified, and the second loop returns in its first
iteration: `first` is the position in `nearest` of the entry that iteration visits.  The outer
`none` is the run-time panic of `v[0]` on an empty slice. -/
def Symbolicate (symbols : Except Err (List elf.Symbol)) (addr : Nat) (first : Nat) :
    Option (String × Option Err) :=
  match symbols with
  | .error err => some ("", some err)
  | .ok syms =>
    let m := nearest syms addr
    match m.get? (first % m.length) with
    | none => some ("", none)
    | some (dist, v) =>
      match v with
      | [] => none
      | sym :: _ => some (sym.Name ++ "+0x" ++ hex dist, none)

end loader

/-! ## `usercorn.go`: memory mapper -/

namespace loader

/-- The struct `loader.Segment`: a load address and the bytes to place there. -/
structure Segment where
  Addr : Nat
  Data : List Nat
deriving DecidableEq, Repr

end loader

namespace models

/-- Modelled from the spec: the struct `models.Segment` of package `models`, whose source is
not at hand; a mapped region `{start, end}` with `end` exclusive. -/
structure Segment where
  Start : Nat
  End : Nat
deriving DecidableEq, Repr

/-- Modelled from the spec: the method `Overlaps` of `models.Segment`, "scan existing regions
for an overlap": the two half-open ranges intersect. -/
def Segment.Overlaps (s o : Segment) : Bool :=
  decide (s.Start < o.End ∧ o.Start < s.End)

/-- Modelled from the spec: the method `Merge` of `models.Segment`, "extend that region to
the union of both spans". -/
def Segment.Merge (s o : Segment) : Segment :=
  { Start := min s.Start o.Start, End := max s.End o.End }

end models

/-- Modelled from the spec: the helper `align(address, size, roundOutward)`, whose source is
not at hand, for a backend page size `page`: the start is `floor(A / page) * page` and the end
is `ceil((A + L) / page) * page`; it returns the start and the size of that span. -/
def alignPage (page : Nat) (addr size : Nat) (_growl : Bool) : Nat × Nat :=
  let start := addr / page * page
  let stop := (addr + size + page - 1) / page * page
  (start, stop - start)

/-- The inner loop of `mapMemory` together with the `append` after it: the span `s` is merged
into the first region of `merged` that overlaps it, or appended when none does. -/
def mergeInto : List models.Segment → models.Segment → List models.Segment
  | [], s => [s]
  | s2 :: rest, s =>
    if s2.Overlaps s then s2.Merge s :: rest else s2 :: mergeInto rest s

/-- The outer loop of `mapMemory`: the list `merged` that is handed to `MemMap`.
`align` is the helper `align` of the main package. -/
def mergeSegments (align : Nat → Nat → Bool → Nat × Nat) (segments : List loader.Segment) :
    List models.Segment :=
  segments.foldl
    (fun merged seg =>
      let r := align seg.Addr seg.Data.length true
      mergeInto merged { Start := r.1, End := add64 r.1 r.2 })
    []

/-! ## `usercorn.go`: the emulation backend -/

/-- The three hooks that `addHooks` registers. -/
inductive Hook where
  | memInvalid
  | intr
  | insnSyscall
deriving DecidableEq, Repr

/-- Modelled from the spec: the embedded `*Unicorn`, whose source is not at hand.  Its methods
are state transformers on a backend state `σ`; a method that returns an `error` yields it as
an `Option Err`.  `STACK_BASE` and `STACK_SIZE` are the constants of the main package. -/
structure Unicorn (σ : Type) where
  HookAdd : Hook → σ → σ
  MemMap : Nat → Nat → σ → σ × Option Err
  MemWrite : Nat → List Nat → σ → σ × Option Err
  MemReadInto : Nat → Nat → σ → σ × Option Err
  Mmap : Nat → Nat → σ → σ × Nat × Option Err
  RegReadSP : σ → σ × Nat × Option Err
  RegWriteSP : Nat → σ → σ × Option Err
  Push : Nat → σ → σ × Option Err
  Disas : Nat → Nat → σ → σ × Option Err
  Start : Nat → Nat → σ → σ × Option Err
  STACK_BASE : Nat
  STACK_SIZE : Nat

/-- The struct `Usercorn`: the backend state, what `u.loader.Segments()` returns, and the
fields `Entry` and `StackBase`. -/
structure Usercorn (σ : Type) where
  uc : σ
  segments : Except Err (List loader.Segment)
  Entry : Nat
  StackBase : Nat

section Run

variable {σ : Type}

/-- The method `addHooks`: three `HookAdd` calls, whose results are dropped. -/
def addHooks (B : Unicorn σ) (u : Usercorn σ) : Usercorn σ × Option Err :=
  let s := B.HookAdd Hook.memInvalid u.uc
  let s := B.HookAdd Hook.intr s
  let s := B.HookAdd Hook.insnSyscall s
  ({ u with uc := s }, none)

/-- The second loop of `mapMemory`: `MemMap` of every region, stopping at the first error. -/
def mapRegions (B : Unicorn σ) : List models.Segment → σ → σ × Option Err
  | [], s => (s, none)
  | seg :: rest, s =>
    match B.MemMap seg.Start (sub64 seg.End seg.Start) s with
    | (s, some err) => (s, some err)
    | (s, none) => mapRegions B rest s

/-- The third loop of `mapMemory`: `MemWrite` of every segment, stopping at the first error. -/
def writeSegments (B : Unicorn σ) : List loader.Segment → σ → σ × Option Err
  | [], s => (s, none)
  | seg :: rest, s =>
    match B.MemWrite seg.Addr seg.Data s with
    | (s, some err) => (s, some err)
    | (s, none) => writeSegments B rest s

/-- The method `mapMemory`. -/
def mapMemory (B : Unicorn σ) (align : Nat → Nat → Bool → Nat × Nat) (u : Usercorn σ) :
    Usercorn σ × Option Err :=
  match u.segments with
  | .error err => (u, some err)
  | .ok segments =>
    match mapRegions B (mergeSegments align segments) u.uc with
    | (s, some err) => ({ u with uc := s }, some err)
    | (s, none) =>
      match writeSegments B segments s with
      | (s, some err) => ({ u with uc := s }, some err)
      | (s, none) => ({ u with uc := s }, none)

/-- The method `setupStack`. -/
def setupStack (B : Unicorn σ) (u : Usercorn σ) : Usercorn σ × Option Err :=
  match B.Mmap B.STACK_BASE B.STACK_SIZE u.uc with
  | (s, _, some err) => ({ u with uc := s }, some err)
  | (s, stack, none) =>
    match B.RegWriteSP (add64 stack B.STACK_SIZE) s with
    | (s, some err) => ({ u with uc := s, StackBase := stack }, some err)
    | (s, none) => ({ u with uc := s, StackBase := stack }, none)

/-- The first loop of `pushStrings`: `argvSize`.  The lengths are those of strings held in
memory, so the Go `int` sum is the exact sum. -/
def argvSize (args : List (List Nat)) : Nat :=
  args.foldl (fun n v => n + (v.length + 1)) 0

/-- Go `copy(buf[pos:], src)`: as many bytes of `src` as fit behind position `pos`. -/
def copyAt (buf : List Nat) (pos : Nat) (src : List Nat) : List Nat :=
  buf.take pos ++ src.take (buf.length - pos) ++ buf.drop (pos + src.length)

/-- The loop state of the second loop of `pushStrings`. -/
structure Packing where
  buf : List Nat
  addrs : List Nat
  pos : Nat
deriving DecidableEq, Repr

/-- The second loop of `pushStrings`, `for i := len(args) - 1; i >= 0; i--`, which visits the
arguments from the last to the first.  `pos` counts bytes of the buffer that `make` has
allocated, so it is an exact sum; the recorded address is a `uint64` sum. -/
def packArgs (argvAddr : Nat) (args : List (List Nat)) : Packing :=
  args.reverse.foldl
    (fun st arg =>
      { buf := copyAt st.buf st.pos arg,
        addrs := st.addrs ++ [add64 argvAddr st.pos],
        pos := st.pos + (arg.length + 1) })
    { buf := List.replicate (argvSize args) 0, addrs := [], pos := 0 }

/-- The last loop of `pushStrings`: `Push` of every recorded address, results dropped. -/
def pushAll (B : Unicorn σ) (vs : List Nat) (s : σ) : σ :=
  vs.foldl (fun s v => (B.Push v s).1) s

/-- The method `pushStrings`.  Only the error of `Mmap` is looked at. -/
def pushStrings (B : Unicorn σ) (args : List (List Nat)) (s : σ) : σ × Option Err :=
  match B.Mmap 0 (argvSize args) s with
  | (s, _, some err) => (s, some err)
  | (s, argvAddr, none) =>
    let p := packArgs argvAddr args
    let s := (B.MemWrite argvAddr p.buf s).1
    let s := (B.Push 0 s).1
    (pushAll B p.addrs s, none)

/-- Lines 58 to 65 of `Run`: the envp terminator, `pushStrings`, then argc. -/
def pushArgs (B : Unicorn σ) (args : List (List Nat)) (s : σ) : σ × Option Err :=
  let s := (B.Push 0 s).1
  match pushStrings B args s with
  | (s, some err) => (s, some err)
  | (s, none) => ((B.Push args.length s).1, none)

/-- The method `Run`.  The error of `Disas` is only printed. -/
def Run (B : Unicorn σ) (align : Nat → Nat → Bool → Nat × Nat) (u : Usercorn σ)
    (args : List (List Nat)) : Usercorn σ × Option Err :=
  match addHooks B u with
  | (u, some err) => (u, some err)
  | (u, none) =>
    match mapMemory B align u with
    | (u, some err) => (u, some err)
    | (u, none) =>
      match setupStack B u with
      | (u, some err) => (u, some err)
      | (u, none) =>
        match pushArgs B args u.uc with
        | (s, some err) => ({ u with uc := s }, some err)
        | (s, none) =>
          let s := (B.Disas u.Entry 64 s).1
          match B.RegReadSP s with
          | (s, _, some err) => ({ u with uc := s }, some err)
          | (s, sp, none) =>
            match B.MemReadInto (sub64 (add64 u.StackBase B.STACK_SIZE) sp) sp s with
            | (s, some err) => ({ u with uc := s }, some err)
            | (s, none) =>
              let r := B.Start u.Entry 0 s
              ({ u with uc := r.1 }, r.2)

end Run

/-! ## `usercorn.go`: the syscall router -/

namespace syscalls

/-- The context handed to the syscall layer, with a record of the names `Call` was invoked
with. -/
structure Ctx (σ : Type) where
  st : σ
  calls : List String

/-- The argument fetcher `getArgs func(n int) ([]uint64, error)`. -/
abbrev ArgFetcher := Int → List Nat × Option Err

/-- Modelled from the spec: `Call(context, syscallName, argFetcher) -> (result, error)` of
package `syscalls`, whose source is not at hand.  The semantics of the individual syscalls is
the parameter `impl`; each invocation is recorded in `calls`. -/
def Call {σ : Type} (impl : σ → String → ArgFetcher → σ × Nat × Option Err) (u : Ctx σ)
    (name : String) (getArgs : ArgFetcher) : Ctx σ × Nat × Option Err :=
  let r := impl u.st name getArgs
  ({ st := r.1, calls := u.calls ++ [name] }, r.2)

end syscalls

/-- The method `Usercorn.Syscall`; `table` is the Go map `table map[int]string` as its lookup
function. -/
def Syscall {σ : Type} (impl : σ → String → syscalls.ArgFetcher → σ × Nat × Option Err)
    (u : syscalls.Ctx σ) (table : Int → Option String) (n : Int)
    (getArgs : syscalls.ArgFetcher) : syscalls.Ctx σ × Nat × Option Err :=
  match table n with
  | none => (u, 0, some ("OS has no syscall: " ++ toString n))
  | some name => syscalls.Call impl u name getArgs

/-! ## Two backends -/

/-- Byte memory after `data` was stored at `addr`. -/
def memWrite (mem : Nat → Nat) (addr : Nat) (data : List Nat) : Nat → Nat :=
  fun a => if addr ≤ a ∧ a < addr + data.length then data.getD (a - addr) 0 else mem a

/-- The `len` bytes of memory from `addr` on. -/
def memRead (mem : Nat → Nat) (addr len : Nat) : List Nat :=
  (List.range len).map (fun i => mem (addr + i))

/-- State of a backend whose operations all succeed: the stack pointer register, the byte
memory and the number of words pushed so far. -/
structure Machine where
  sp : Nat
  mem : Nat → Nat
  pushes : Nat

/-- Modelled from the spec: a backend on which every operation succeeds.  "Push a word" is
"decrement stack pointer by the architecture's pointer width, write the word at the new
stack pointer, update the register"; `Bsz` is the pointer width in bytes, `pack` the byte
encoding of a word on the architecture, and `fresh` the address of the region that `Mmap`
picks when no address is asked for. -/
def okBackend (Bsz : Nat) (pack : Nat → List Nat) (fresh : Nat) : Unicorn Machine where
  HookAdd _ s := s
  MemMap _ _ s := (s, none)
  MemWrite addr data s := ({ s with mem := memWrite s.mem addr data }, none)
  MemReadInto _ _ s := (s, none)
  Mmap addr _ s := (s, if addr = 0 then fresh else addr, none)
  RegReadSP s := (s, s.sp, none)
  RegWriteSP v s := ({ s with sp := v }, none)
  Push v s :=
    ({ sp := sub64 s.sp Bsz, mem := memWrite s.mem (sub64 s.sp Bsz) (pack v),
       pushes := s.pushes + 1 }, none)
  Disas _ _ s := (s, none)
  Start _ _ s := (s, none)
  STACK_BASE := 0x7fff0000
  STACK_SIZE := 0x800000

/-- A call made to the backend. -/
inductive Op where
  | hookAdd (h : Hook)
  | memMap (addr size : Nat)
  | memWrite (addr : Nat) (data : List Nat)
  | memReadInto (len addr : Nat)
  | mmap (addr size : Nat)
  | regReadSP
  | regWriteSP (v : Nat)
  | push (v : Nat)
  | disas (addr size : Nat)
  | start (entry stop : Nat)
deriving DecidableEq, Repr

/-- State of the recording backend: the calls made so far and the stack pointer register. -/
structure Logged where
  log : List Op
  sp : Nat
deriving DecidableEq, Repr

/-- Modelled from the spec: a backend that records every call and on which the calls picked
out by `fails` return an error.  A failed `Push` "leaves the register unmodified". -/
def logBackend (fails : Op → Option Err) (fresh : Nat) : Unicorn Logged where
  HookAdd h s := { s with log := s.log ++ [Op.hookAdd h] }
  MemMap a n s := ({ s with log := s.log ++ [Op.memMap a n] }, fails (Op.memMap a n))
  MemWrite a d s := ({ s with log := s.log ++ [Op.memWrite a d] }, fails (Op.memWrite a d))
  MemReadInto n a s :=
    ({ s with log := s.log ++ [Op.memReadInto n a] }, fails (Op.memReadInto n a))
  Mmap a n s :=
    ({ s with log := s.log ++ [Op.mmap a n] }, if a = 0 then fresh else a, fails (Op.mmap a n))
  RegReadSP s := ({ s with log := s.log ++ [Op.regReadSP] }, s.sp, fails Op.regReadSP)
  RegWriteSP v s :=
    match fails (Op.regWriteSP v) with
    | some err => ({ s with log := s.log ++ [Op.regWriteSP v] }, some err)
    | none => ({ log := s.log ++ [Op.regWriteSP v], sp := v }, none)
  Push v s :=
    match fails (Op.push v) with
    | some err => ({ s with log := s.log ++ [Op.push v] }, some err)
    | none => ({ log := s.log ++ [Op.push v], sp := sub64 s.sp 8 }, none)
  Disas a n s := ({ s with log := s.log ++ [Op.disas a n] }, fails (Op.disas a n))
  Start a b s := ({ s with log := s.log ++ [Op.start a b] }, fails (Op.start a b))
  STACK_BASE := 0x7fff0000
  STACK_SIZE := 0x800000

/-- Every `Push` fails; nothing else does. -/
def pushFails : Op → Option Err
  | Op.push _ => some "push failed"
  | _ => none

/-- The write of the argument-string buffer at `argvAddr` fails; nothing else does. -/
def argvWriteFails (argvAddr : Nat) : Op → Option Err
  | Op.memWrite a _ => if a = argvAddr then some "write failed" else none
  | _ => none

/-- A program image of one 16-byte segment at `0x400000`, entered at `0x400000`. -/
def sampleUsercorn : Usercorn Logged :=
  { uc := { log := [], sp := 0 },
    segments := .ok [{ Addr := 0x400000, Data := List.replicate 16 0x90 }],
    Entry := 0x400000,
    StackBase := 0 }

/-! ## Vocabulary of the statements -/

namespace loader

/-- Every bucket of the map is non-empty and holds only symbols related to its key by `R`. -/
def SymMap.Good (R : elf.Symbol → Nat → Prop) (m : SymMap) : Prop :=
  ∀ e ∈ m, e.2 ≠ [] ∧ ∀ s ∈ e.2, R s e.1

end loader

/-- Some region of `m` spans `[lo, hi)`, with a region taken as the range that line 146 of
`mapMemory` passes to `MemMap` for it: `Start` and the `uint64` difference `End - Start`. -/
def Covered (m : List models.Segment) (lo hi : Nat) : Prop :=
  ∃ r ∈ m, r.Start ≤ lo ∧ hi ≤ r.Start + sub64 r.End r.Start

/-- The fields of the region are `uint64` values, and `Start <= End` unless `End` is 0. -/
def Plain (r : models.Segment) : Prop :=
  r.Start < u64 ∧ r.End < u64 ∧ (r.Start ≤ r.End ∨ r.End = 0)

/-- Two overlapping segments in one page, `[0x400010, 0x400020)` and `[0x400018, 0x400030)`. -/
def twoSegments : List loader.Segment :=
  [{ Addr := 0x400010, Data := List.replicate 16 0x90 },
   { Addr := 0x400018, Data := List.replicate 24 0x90 }]

/-- A segment of 16 bytes at `2 ^ 64 - 0x800`, in the last page of the address space. -/
def topSegment : loader.Segment :=
  { Addr := u64 - 0x800, Data := List.replicate 16 0 }

/-- Three segments: one byte in the page at `0x400000`, one byte in the page at `0x401000`,
and two bytes that straddle the boundary between these pages. -/
def chainSegments : List loader.Segment :=
  [{ Addr := 0x400000, Data := [0x90] },
   { Addr := 0x401800, Data := [0x90] },
   { Addr := 0x400fff, Data := [0x90, 0x90] }]

/-- The size `sum(len(arg) + 1 for arg in args)`. -/
def packedSize (args : List (List Nat)) : Nat :=
  (args.map (fun a => a.length + 1)).sum

/-- The strings of `l`, each followed by a NUL byte, one after the other. -/
def packed (l : List (List Nat)) : List Nat :=
  (l.map (fun a => a ++ [0])).flatten

/-- The `uint64` addresses `base + pos` of the strings of `l` when they are laid out one after
the other, each followed by a NUL byte, from offset `pos` on. -/
def packedAddrs (base : Nat) : Nat → List (List Nat) → List Nat
  | _, [] => []
  | pos, a :: rest => add64 base pos :: packedAddrs base (pos + (a.length + 1)) rest

/-- Little-endian encoding of the word `v` in `w` bytes. -/
def packLE (w : Nat) (v : Nat) : List Nat :=
  (List.range w).map (fun i => v / 256 ^ i % 256)

/-- A machine with zeroed memory whose stack pointer is at the top of the stack region. -/
def freshMachine : Machine :=
  { sp := 0x807f0000, mem := fun _ => 0, pushes := 0 }

/-! # Theorems -/

/-! ## Arithmetic of `uint64` -/

theorem sub64_of_le {a b : Nat} (ha : a < u64) (hba : b ≤ a) : sub64 a b = a - b := by
  unfold sub64
  have h : a + u64 - b = (a - b) + u64 := by omega
  rw [h, Nat.add_mod_right]
  exact Nat.mod_eq_of_lt (by omega)

theorem sub64_of_lt {a b : Nat} (hb : b < u64) (hab : a < b) :
    sub64 a b = u64 - (b - a) := by
  unfold sub64
  have h : a + u64 - b = u64 - (b - a) := by omega
  rw [h]
  exact Nat.mod_eq_of_lt (by omega)

theorem add64_of_lt {a b : Nat} (h : a + b < u64) : add64 a b = a + b :=
  Nat.mod_eq_of_lt h

/-! ## The map `nearest` -/

namespace loader

theorem SymMap.good_add {R : elf.Symbol → Nat → Prop} {m : SymMap} {k : Nat} {s : elf.Symbol}
    (hm : SymMap.Good R m) (hs : R s k) : SymMap.Good R (m.add k s) := by
  induction m with
  | nil =>
    intro e he
    simp only [SymMap.add, List.mem_singleton] at he
    subst he
    simpa using hs
  | cons hd tl ih =>
    obtain ⟨k0, v0⟩ := hd
    have hhd := hm (k0, v0) (List.mem_cons_self _ _)
    have htl : SymMap.Good R tl := fun e he => hm e (List.mem_cons_of_mem _ he)
    intro e he
    simp only [SymMap.add] at he
    split at he
    · rename_i hk
      rcases List.mem_cons.1 he with rfl | he
      · refine ⟨by simp, ?_⟩
        intro t ht
        rcases List.mem_append.1 ht with ht | ht
        · exact hhd.2 t ht
        · simp only [List.mem_singleton] at ht
          subst ht
          simpa [hk] using hs
      · exact htl e he
    · rcases List.mem_cons.1 he with rfl | he
      · exact hhd
      · exact ih htl e he

theorem SymMap.add_ne_nil (m : SymMap) (k : Nat) (s : elf.Symbol) : m.add k s ≠ [] := by
  cases m with
  | nil => simp [SymMap.add]
  | cons hd tl =>
    obtain ⟨k0, v0⟩ := hd
    simp only [SymMap.add]
    split <;> simp

/-- The fold of the first loop of `Symbolicate`, from an arbitrary map. -/
theorem nearest_fold_good {R : elf.Symbol → Nat → Prop} (addr : Nat) (syms : List elf.Symbol)
    (m : SymMap) (hm : SymMap.Good R m)
    (hR : ∀ s ∈ syms, selects addr s = true → R s (sub64 addr s.Value)) :
    SymMap.Good R
      (syms.foldl (fun m sym => if selects addr sym then m.add (sub64 addr sym.Value) sym else m)
        m) := by
  induction syms generalizing m with
  | nil => simpa using hm
  | cons s rest ih =>
    simp only [List.foldl_cons]
    apply ih
    · split
      · rename_i h
        exact SymMap.good_add hm (hR s (List.mem_cons_self _ _) h)
      · exact hm
    · intro t ht
      exact hR t (List.mem_cons_of_mem _ ht)

theorem nearest_fold_ne_nil (addr : Nat) (syms : List elf.Symbol) (m : SymMap)
    (h : m ≠ [] ∨ ∃ s ∈ syms, selects addr s = true) :
    syms.foldl (fun m sym => if selects addr sym then m.add (sub64 addr sym.Value) sym else m)
      m ≠ [] := by
  induction syms generalizing m with
  | nil =>
    rcases h with h | ⟨s, hs, _⟩
    · simpa using h
    · simp at hs
  | cons s rest ih =>
    simp only [List.foldl_cons]
    apply ih
    by_cases hsel : selects addr s = true
    · left
      simp only [hsel, if_true]
      exact SymMap.add_ne_nil _ _ _
    · rcases h with h | ⟨t, ht, htsel⟩
      · left
        simpa [hsel] using h
      · rcases List.mem_cons.1 ht with rfl | ht
        · exact absurd htsel hsel
        · exact Or.inr ⟨t, ht, htsel⟩

/-- Buckets of `nearest` are non-empty and hold selected symbols of the table at their
distance. -/
theorem nearest_good (syms : List elf.Symbol) (addr : Nat) :
    SymMap.Good (fun s k => s ∈ syms ∧ selects addr s = true ∧ sub64 addr s.Value = k)
      (nearest syms addr) := by
  unfold nearest
  apply nearest_fold_good
  · intro e he
    simp at he
  · intro s hs hsel
    exact ⟨hs, hsel, rfl⟩

theorem nearest_eq_nil_iff (syms : List elf.Symbol) (addr : Nat) :
    nearest syms addr = [] ↔ ∀ s ∈ syms, selects addr s = false := by
  constructor
  · intro h s hs
    by_contra hsel
    have hsel' : selects addr s = true := by simpa using hsel
    exact nearest_fold_ne_nil addr syms [] (Or.inr ⟨s, hs, hsel'⟩) h
  · intro h
    by_contra hne
    obtain ⟨e, he⟩ := List.exists_mem_of_ne_nil _ hne
    obtain ⟨hv, hall⟩ := nearest_good syms addr e he
    obtain ⟨t, ht⟩ := List.exists_mem_of_ne_nil _ hv
    obtain ⟨ht1, ht2, _⟩ := hall t ht
    rw [h t ht1] at ht2
    exact absurd ht2 (by simp)

/-- What `Symbolicate` returns, in terms of the map `nearest`. -/
theorem Symbolicate_ok (syms : List elf.Symbol) (addr first : Nat) :
    (nearest syms addr = [] ∧ Symbolicate (.ok syms) addr first = some ("", none)) ∨
    (∃ s ∈ syms, selects addr s = true ∧
      Symbolicate (.ok syms) addr first
        = some (s.Name ++ "+0x" ++ hex (sub64 addr s.Value), none)) := by
  by_cases hnil : nearest syms addr = []
  · left
    refine ⟨hnil, ?_⟩
    simp [Symbolicate, hnil]
  · right
    have hlen : 0 < (nearest syms addr).length := List.length_pos.2 hnil
    have hidx : first % (nearest syms addr).length < (nearest syms addr).length :=
      Nat.mod_lt _ hlen
    obtain ⟨e, he⟩ : ∃ e, (nearest syms addr).get? (first % (nearest syms addr).length) = some e :=
      ⟨_, List.get?_eq_get hidx⟩
    have hmem : e ∈ nearest syms addr := List.get?_mem he
    obtain ⟨hv, hall⟩ := nearest_good syms addr e hmem
    obtain ⟨k, v⟩ := e
    cases v with
    | nil => exact absurd rfl hv
    | cons s rest =>
      obtain ⟨hs, hsel, hk⟩ := hall s (List.mem_cons_self _ _)
      refine ⟨s, hs, hsel, ?_⟩
      simp only [Symbolicate, he]
      simp only at hk
      rw [hk]

theorem append_hex_ne_empty (name : String) (n : Nat) : name ++ "+0x" ++ hex n ≠ "" := by
  intro h
  have := congrArg String.length h
  simp only [String.length_append] at this
  have h3 : "+0x".length = 3 := by decide
  have h0 : "".length = 0 := by decide
  omega

/-- Without wrap-around the test of the loop is `value < addr` and `addr - value <= size`. -/
theorem selects_iff_of_no_overflow {addr : Nat} {s : elf.Symbol} (haddr : addr < u64)
    (hs : s.Value + s.Size < u64) :
    selects addr s = true ↔ s.Value < addr ∧ addr - s.Value ≤ s.Size := by
  unfold selects
  rw [decide_eq_true_iff]
  by_cases hle : s.Value ≤ addr
  · rw [sub64_of_le haddr hle]
    omega
  · have hlt : addr < s.Value := by omega
    rw [sub64_of_lt (by omega) hlt]
    omega

end loader

/-! ## `ElfLoader.Symbolicate` -/

namespace loader

/-- C4: for an address and a symbol table in which no symbol's `value + size` overflows 64
bits, `Symbolicate` returns without error; the result is the empty string exactly when no
symbol has `value < addr` and `addr - value <= size`, and otherwise it is
`name + "+0x" + hex (addr - value)` for a symbol of the table with `value < addr` and
`addr - value <= size`. -/
theorem Symbolicate_selects_only_covering (syms : List elf.Symbol) (addr first : Nat)
    (haddr : addr < u64) (hsyms : ∀ s ∈ syms, s.Value + s.Size < u64) :
    ∃ r, Symbolicate (.ok syms) addr first = some (r, none) ∧
      (r = "" ↔ ¬ ∃ s ∈ syms, s.Value < addr ∧ addr - s.Value ≤ s.Size) ∧
      (r ≠ "" → ∃ s ∈ syms, s.Value < addr ∧ addr - s.Value ≤ s.Size ∧
        r = s.Name ++ "+0x" ++ hex (addr - s.Value)) := by
  rcases Symbolicate_ok syms addr first with ⟨hnil, hres⟩ | ⟨s, hs, hsel, hres⟩
  · refine ⟨"", hres, ?_, fun h => absurd rfl h⟩
    refine iff_of_true rfl ?_
    rintro ⟨s, hs, hcov⟩
    have hno := (nearest_eq_nil_iff syms addr).1 hnil s hs
    have := (selects_iff_of_no_overflow haddr (hsyms s hs)).2 hcov
    rw [hno] at this
    exact absurd this (by simp)
  · have hcov := (selects_iff_of_no_overflow haddr (hsyms s hs)).1 hsel
    have hdist : sub64 addr s.Value = addr - s.Value := sub64_of_le haddr (by omega)
    rw [hdist] at hres
    refine ⟨_, hres, ?_, fun _ => ⟨s, hs, hcov.1, hcov.2, rfl⟩⟩
    exact iff_of_false (append_hex_ne_empty _ _) (fun h => h ⟨s, hs, hcov⟩)

/-- Witness of C4: the symbol `foo` at `0x1000` of size `0x10`, queried at `0x1005`. -/
theorem Symbolicate_selects_only_covering_witness :
    (0x1005 < u64 ∧ ∀ s ∈ [(⟨"foo", 0x1000, 0x10⟩ : elf.Symbol)], s.Value + s.Size < u64) ∧
    ∃ r, Symbolicate (.ok [⟨"foo", 0x1000, 0x10⟩]) 0x1005 0 = some (r, none) ∧
      (r = "" ↔ ¬ ∃ s ∈ [(⟨"foo", 0x1000, 0x10⟩ : elf.Symbol)],
        s.Value < 0x1005 ∧ 0x1005 - s.Value ≤ s.Size) ∧
      (r ≠ "" → ∃ s ∈ [(⟨"foo", 0x1000, 0x10⟩ : elf.Symbol)],
        s.Value < 0x1005 ∧ 0x1005 - s.Value ≤ s.Size ∧
        r = s.Name ++ "+0x" ++ hex (0x1005 - s.Value)) :=
  ⟨⟨by decide, by decide⟩,
    Symbolicate_selects_only_covering [⟨"foo", 0x1000, 0x10⟩] 0x1005 0 (by decide) (by decide)⟩

/-- C5: with `foo` at `0x1000` (size `0x100`) and `bar` at `0x1004` (size `0x10`) both covering
`0x1005`, the map `nearest` has the keys 5 and 1, and the return value is `foo+0x5` when the
map iteration starts at key 5, although `bar` is nearer; it is `bar+0x1` only when the
iteration starts at key 1. -/
theorem Symbolicate_returns_farther_symbol :
    nearest [⟨"foo", 0x1000, 0x100⟩, ⟨"bar", 0x1004, 0x10⟩] 0x1005
      = [(5, [⟨"foo", 0x1000, 0x100⟩]), (1, [⟨"bar", 0x1004, 0x10⟩])] ∧
    Symbolicate (.ok [⟨"foo", 0x1000, 0x100⟩, ⟨"bar", 0x1004, 0x10⟩]) 0x1005 0
      = some ("foo+0x5", none) ∧
    Symbolicate (.ok [⟨"foo", 0x1000, 0x100⟩, ⟨"bar", 0x1004, 0x10⟩]) 0x1005 1
      = some ("bar+0x1", none) := by
  decide

/-- C10: the distance is `(addr - value) mod 2 ^ 64`.  A symbol that starts after the address
and whose size is below `2 ^ 64 - (value - addr)` is in no bucket of `nearest`, so it is
never selected; and there are an address and a symbol with `value = addr + 1` and
`size = 2 ^ 64 - 1` for which the result is non-empty and names that symbol. -/
theorem Symbolicate_wraparound (syms : List elf.Symbol) (addr : Nat) (sym : elf.Symbol)
    (hval : sym.Value < u64) (hafter : addr < sym.Value)
    (hsize : sym.Size < u64 - (sym.Value - addr)) :
    (selects addr sym = false ∧ ∀ e ∈ nearest syms addr, sym ∉ e.2) ∧
    ∃ (a : Nat) (s : elf.Symbol), s.Value = a + 1 ∧ s.Size = u64 - 1 ∧ a < s.Value ∧
      ∀ first, Symbolicate (.ok [s]) a first
        = some (s.Name ++ "+0x" ++ hex (sub64 a s.Value), none) ∧
        s.Name ++ "+0x" ++ hex (sub64 a s.Value) ≠ "" := by
  have hsel : selects addr sym = false := by
    unfold selects
    rw [decide_eq_false_iff_not, sub64_of_lt hval hafter]
    omega
  refine ⟨⟨hsel, ?_⟩, ?_⟩
  · intro e he hmem
    obtain ⟨_, h2, _⟩ := ((nearest_good syms addr) e he).2 sym hmem
    rw [hsel] at h2
    exact absurd h2 (by simp)
  · refine ⟨0, ⟨"wrapped", 1, u64 - 1⟩, rfl, rfl, by decide, ?_⟩
    intro first
    refine ⟨?_, append_hex_ne_empty _ _⟩
    have hn : nearest [(⟨"wrapped", 1, u64 - 1⟩ : elf.Symbol)] 0
        = [(u64 - 1, [⟨"wrapped", 1, u64 - 1⟩])] := by decide
    have hd : sub64 0 1 = u64 - 1 := by decide
    simp only [Symbolicate, hn, List.length_singleton, Nat.mod_one, List.get?_cons_zero, hd]

/-- Witness of C10: a symbol at `0x2000` of size `0x10`, queried at `0x1000`. -/
theorem Symbolicate_wraparound_witness :
    ((0x2000 : Nat) < u64 ∧ (0x1000 : Nat) < 0x2000 ∧ 0x10 < u64 - (0x2000 - 0x1000)) ∧
    (selects 0x1000 ⟨"late", 0x2000, 0x10⟩ = false ∧
      ∀ e ∈ nearest [⟨"late", 0x2000, 0x10⟩] 0x1000, (⟨"late", 0x2000, 0x10⟩ : elf.Symbol) ∉ e.2) :=
  ⟨⟨by decide, by decide, by decide⟩,
    (Symbolicate_wraparound [⟨"late", 0x2000, 0x10⟩] 0x1000 ⟨"late", 0x2000, 0x10⟩
      (by decide) (by decide) (by decide)).1⟩

/-! ## `NewElfLoader` -/

/-- C9, as the code has it: `NewElfLoader` fails exactly when the class is neither `ELFCLASS32`
nor `ELFCLASS64` or the machine is not one of the seven keys of `machineMap`; on success the
header has `arch = machineMap[machine]`, `bits` 32 for `ELFCLASS32` and 64 for `ELFCLASS64`,
`entry` the entry point of the file, and `os` the fixed string `"linux"`. -/
theorem NewElfLoader_result (file : elf.File) :
    ((∃ err, NewElfLoader file = .error err) ↔
      (¬ (file.Class = elf.ELFCLASS32 ∨ file.Class = elf.ELFCLASS64) ∨
        file.Machine ∉ [elf.EM_386, elf.EM_X86_64, elf.EM_ARM, elf.EM_MIPS, elf.EM_MIPS_RS3_LE,
          elf.EM_PPC, elf.EM_PPC64])) ∧
    (∀ l, NewElfLoader file = .ok l →
      machineMap file.Machine = some l.header.arch ∧
      (file.Class = elf.ELFCLASS32 → l.header.bits = 32) ∧
      (file.Class = elf.ELFCLASS64 → l.header.bits = 64) ∧
      l.header.entry = file.Entry ∧ l.header.os = "linux" ∧ l.file = file) := by
  have hkeys : machineMap file.Machine = none ↔
      file.Machine ∉ [elf.EM_386, elf.EM_X86_64, elf.EM_ARM, elf.EM_MIPS, elf.EM_MIPS_RS3_LE,
        elf.EM_PPC, elf.EM_PPC64] := by
    unfold machineMap
    simp only [List.mem_cons, List.mem_singleton, List.not_mem_nil, or_false, not_or]
    split_ifs <;> simp_all
  constructor
  · rw [← hkeys]
    unfold NewElfLoader
    by_cases hc : file.Class = elf.ELFCLASS32 ∨ file.Class = elf.ELFCLASS64
    · simp only [hc, if_true, not_true_eq_false, false_or]
      cases hm : machineMap file.Machine with
      | none => simp
      | some name => simp
    · simp [hc]
  · intro l hl
    unfold NewElfLoader at hl
    by_cases hc : file.Class = elf.ELFCLASS32 ∨ file.Class = elf.ELFCLASS64
    · simp only [hc, if_true] at hl
      cases hm : machineMap file.Machine with
      | none => simp [hm] at hl
      | some name =>
        simp only [hm, Except.ok.injEq] at hl
        subst hl
        refine ⟨rfl, ?_, ?_, rfl, rfl, rfl⟩
        · intro h32
          simp [h32]
        · intro h64
          have : file.Class ≠ elf.ELFCLASS32 := by
            rw [h64]
            decide
          simp [this]
    · simp [hc] at hl

/-- Witness of C9: a 64-bit `x86_64` executable. -/
theorem NewElfLoader_result_witness :
    NewElfLoader ⟨elf.ELFCLASS64, elf.ELFOSABI_NONE, elf.EM_X86_64, 0x400000⟩
      = .ok ⟨⟨"x86_64", 64, "linux", 0x400000⟩,
          ⟨elf.ELFCLASS64, elf.ELFOSABI_NONE, elf.EM_X86_64, 0x400000⟩⟩ ∧
    machineMap elf.EM_X86_64 = some "x86_64" :=
  ⟨rfl, ((NewElfLoader_result ⟨elf.ELFCLASS64, elf.ELFOSABI_NONE, elf.EM_X86_64, 0x400000⟩).2
    ⟨⟨"x86_64", 64, "linux", 0x400000⟩,
      ⟨elf.ELFCLASS64, elf.ELFOSABI_NONE, elf.EM_X86_64, 0x400000⟩⟩ rfl).1⟩

/-- C9 as stated fails: a file that reports FreeBSD and a file that reports Linux both load,
and both get the os identifier `"linux"`. -/
theorem NewElfLoader_os_ignores_osabi :
    elf.ELFOSABI_FREEBSD ≠ elf.ELFOSABI_LINUX ∧
    (∃ l, NewElfLoader ⟨elf.ELFCLASS64, elf.ELFOSABI_FREEBSD, elf.EM_X86_64, 0x400000⟩ = .ok l ∧
      l.header.os = "linux") ∧
    (∃ l, NewElfLoader ⟨elf.ELFCLASS64, elf.ELFOSABI_LINUX, elf.EM_X86_64, 0x400000⟩ = .ok l ∧
      l.header.os = "linux") :=
  ⟨by decide, ⟨_, rfl, rfl⟩, ⟨_, rfl, rfl⟩⟩

end loader

/-! ## `Usercorn.Syscall` -/

/-- C6: when `n` is not a key of the table, `Syscall` returns the result 0 with the error
`"OS has no syscall: n"` and leaves the context, the record of `Call` invocations included,
as it was; when `n` is a key, `Syscall` returns what `syscalls.Call(u, table[n], getArgs)`
returns, and `Call` was invoked once more, with `table[n]`. -/
theorem Syscall_routes {σ : Type}
    (impl : σ → String → syscalls.ArgFetcher → σ × Nat × Option Err) (u : syscalls.Ctx σ)
    (table : Int → Option String) (n : Int) (getArgs : syscalls.ArgFetcher) :
    (table n = none →
      Syscall impl u table n getArgs = (u, 0, some ("OS has no syscall: " ++ toString n)) ∧
      (Syscall impl u table n getArgs).1.calls = u.calls) ∧
    (∀ name, table n = some name →
      Syscall impl u table n getArgs = syscalls.Call impl u name getArgs ∧
      (Syscall impl u table n getArgs).1.calls = u.calls ++ [name]) := by
  constructor
  · intro h
    simp [Syscall, h]
  · intro name h
    simp [Syscall, h, syscalls.Call]

/-- Witness of C6: a table with the single entry `1 -> "write"`, asked for 7 and for 1. -/
theorem Syscall_routes_witness :
    (Syscall (fun (s : Nat) _ _ => (s + 1, 42, none)) ⟨0, []⟩
        (fun k => if k = 1 then some "write" else none) 7 (fun _ => ([], none))
      = (⟨0, []⟩, 0, some "OS has no syscall: 7")) ∧
    (Syscall (fun (s : Nat) _ _ => (s + 1, 42, none)) ⟨0, []⟩
        (fun k => if k = 1 then some "write" else none) 1 (fun _ => ([], none))).1.calls
      = [] ++ ["write"] :=
  ⟨((Syscall_routes (fun (s : Nat) _ _ => (s + 1, 42, none)) ⟨0, []⟩
      (fun k => if k = 1 then some "write" else none) 7 (fun _ => ([], none))).1 (by decide)).1,
   ((Syscall_routes (fun (s : Nat) _ _ => (s + 1, 42, none)) ⟨0, []⟩
      (fun k => if k = 1 then some "write" else none) 1 (fun _ => ([], none))).2 "write"
        (by decide)).2⟩

/-! ## `mapMemory`: the merge loop -/

/-- For a region with `Start <= End` the range handed to `MemMap` ends at `End`. -/
theorem mapped_end_of_le {r : models.Segment} (hend : r.End < u64) (hle : r.Start ≤ r.End) :
    r.Start + sub64 r.End r.Start = r.End := by
  rw [sub64_of_le hend hle]
  omega

/-- The region built at line 136 from a span inside the address space: its fields are
`uint64` values, its end wraps to 0 only when the span ends at `2 ^ 64`, and the range handed
to `MemMap` is the span. -/
theorem span_region {a sz : Nat} (ha : a < u64) (hsz : sz < u64) (hspan : a + sz ≤ u64) :
    Plain { Start := a, End := add64 a sz } ∧
    a + sub64 (add64 a sz) a = a + sz := by
  by_cases hlt : a + sz < u64
  · have hend : add64 a sz = a + sz := add64_of_lt hlt
    rw [hend]
    refine ⟨⟨ha, hlt, Or.inl (by simp only; omega)⟩, ?_⟩
    rw [sub64_of_le hlt (by omega)]
    omega
  · have heq : a + sz = u64 := by omega
    have hend : add64 a sz = 0 := by
      unfold add64
      rw [heq, Nat.mod_self]
    rw [hend]
    have hu : 0 < u64 := by decide
    refine ⟨⟨ha, hu, Or.inr rfl⟩, ?_⟩
    rw [sub64_of_lt ha (by omega)]
    omega

/-- Two regions that `Overlaps` reports as overlapping both have `Start <= End`, and so has
the merged region, whose mapped range ends at the larger of the two ends. -/
theorem merge_of_overlaps {r s : models.Segment} (hr : Plain r) (hs : Plain s)
    (hov : r.Overlaps s = true) :
    Plain (r.Merge s) ∧ (r.Merge s).Start ≤ r.Start ∧ (r.Merge s).Start ≤ s.Start ∧
    r.Start + sub64 r.End r.Start ≤ (r.Merge s).Start + sub64 (r.Merge s).End (r.Merge s).Start ∧
    s.Start + sub64 s.End s.Start
      ≤ (r.Merge s).Start + sub64 (r.Merge s).End (r.Merge s).Start := by
  obtain ⟨hr1, hr2, hr3⟩ := hr
  obtain ⟨hs1, hs2, hs3⟩ := hs
  unfold models.Segment.Overlaps at hov
  rw [decide_eq_true_iff] at hov
  have hrle : r.Start ≤ r.End := by omega
  have hsle : s.Start ≤ s.End := by omega
  have hm1 : (r.Merge s).Start = min r.Start s.Start := rfl
  have hm2 : (r.Merge s).End = max r.End s.End := rfl
  have hmend : (r.Merge s).End < u64 := by rw [hm2]; omega
  have hmle : (r.Merge s).Start ≤ (r.Merge s).End := by rw [hm1, hm2]; omega
  rw [mapped_end_of_le hr2 hrle, mapped_end_of_le hs2 hsle, mapped_end_of_le hmend hmle]
  refine ⟨⟨by rw [hm1]; omega, hmend, Or.inl hmle⟩, ?_, ?_, ?_, ?_⟩
  · rw [hm1]; omega
  · rw [hm1]; omega
  · rw [hm2]; omega
  · rw [hm2]; omega

theorem mergeInto_plain {m : List models.Segment} {s : models.Segment}
    (hm : ∀ r ∈ m, Plain r) (hs : Plain s) : ∀ r ∈ mergeInto m s, Plain r := by
  induction m with
  | nil =>
    intro r hr
    simp only [mergeInto, List.mem_singleton] at hr
    rw [hr]
    exact hs
  | cons s2 rest ih =>
    have h2 := hm s2 (List.mem_cons_self _ _)
    have hrest : ∀ r ∈ rest, Plain r := fun r hr => hm r (List.mem_cons_of_mem _ hr)
    intro r hr
    simp only [mergeInto] at hr
    split at hr
    · rename_i hov
      rcases List.mem_cons.1 hr with rfl | hr
      · exact (merge_of_overlaps h2 hs hov).1
      · exact hrest r hr
    · rcases List.mem_cons.1 hr with rfl | hr
      · exact h2
      · exact ih hrest r hr

theorem mergeInto_keeps_covered {m : List models.Segment} {lo hi : Nat}
    {s : models.Segment} (hm : ∀ r ∈ m, Plain r) (hs : Plain s) (h : Covered m lo hi) :
    Covered (mergeInto m s) lo hi := by
  induction m with
  | nil =>
    obtain ⟨r, hr, _⟩ := h
    simp at hr
  | cons s2 rest ih =>
    have h2 := hm s2 (List.mem_cons_self _ _)
    have hrest : ∀ r ∈ rest, Plain r := fun r hr => hm r (List.mem_cons_of_mem _ hr)
    obtain ⟨r, hr, hlo, hhi⟩ := h
    simp only [mergeInto]
    split
    · rename_i hov
      rcases List.mem_cons.1 hr with rfl | hr
      · obtain ⟨_, hstart, _, hend, _⟩ := merge_of_overlaps h2 hs hov
        exact ⟨r.Merge s, List.mem_cons_self _ _, le_trans hstart hlo, le_trans hhi hend⟩
      · exact ⟨r, List.mem_cons_of_mem _ hr, hlo, hhi⟩
    · rcases List.mem_cons.1 hr with rfl | hr
      · exact ⟨r, List.mem_cons_self _ _, hlo, hhi⟩
      · obtain ⟨r', hr', h'⟩ := ih hrest ⟨r, hr, hlo, hhi⟩
        exact ⟨r', List.mem_cons_of_mem _ hr', h'⟩

theorem mergeInto_covers_new {m : List models.Segment} {s : models.Segment} {lo hi : Nat}
    (hm : ∀ r ∈ m, Plain r) (hs : Plain s)
    (hlo : s.Start ≤ lo) (hhi : hi ≤ s.Start + sub64 s.End s.Start) :
    Covered (mergeInto m s) lo hi := by
  induction m with
  | nil => exact ⟨s, by simp [mergeInto], hlo, hhi⟩
  | cons s2 rest ih =>
    have h2 := hm s2 (List.mem_cons_self _ _)
    have hrest : ∀ r ∈ rest, Plain r := fun r hr => hm r (List.mem_cons_of_mem _ hr)
    simp only [mergeInto]
    split
    · rename_i hov
      obtain ⟨_, _, hstart, _, hend⟩ := merge_of_overlaps h2 hs hov
      exact ⟨s2.Merge s, List.mem_cons_self _ _, le_trans hstart hlo, le_trans hhi hend⟩
    · obtain ⟨r', hr', h'⟩ := ih hrest
      exact ⟨r', List.mem_cons_of_mem _ hr', h'⟩

theorem mergeSegments_fold_covered (align : Nat → Nat → Bool → Nat × Nat)
    (segments : List loader.Segment) (m : List models.Segment) (lo hi : Nat)
    (hm : ∀ r ∈ m, Plain r)
    (hal : ∀ seg ∈ segments,
      Plain { Start := (align seg.Addr seg.Data.length true).1,
              End := add64 (align seg.Addr seg.Data.length true).1
                (align seg.Addr seg.Data.length true).2 })
    (h : Covered m lo hi ∨ ∃ seg ∈ segments,
      (align seg.Addr seg.Data.length true).1 ≤ lo ∧
      hi ≤ (align seg.Addr seg.Data.length true).1 +
        sub64 (add64 (align seg.Addr seg.Data.length true).1
          (align seg.Addr seg.Data.length true).2) (align seg.Addr seg.Data.length true).1) :
    Covered
      (segments.foldl
        (fun merged seg =>
          let r := align seg.Addr seg.Data.length true
          mergeInto merged { Start := r.1, End := add64 r.1 r.2 })
        m) lo hi := by
  induction segments generalizing m with
  | nil =>
    rcases h with h | ⟨seg, hseg, _⟩
    · simpa using h
    · simp at hseg
  | cons seg rest ih =>
    have hseg := hal seg (List.mem_cons_self _ _)
    have hrest : ∀ t ∈ rest, _ := fun t ht => hal t (List.mem_cons_of_mem _ ht)
    simp only [List.foldl_cons]
    apply ih _ (mergeInto_plain hm hseg) hrest
    rcases h with h | ⟨t, ht, hlo, hhi⟩
    · exact Or.inl (mergeInto_keeps_covered hm hseg h)
    · rcases List.mem_cons.1 ht with rfl | ht
      · exact Or.inl (mergeInto_covers_new hm hseg hlo hhi)
      · exact Or.inr ⟨t, ht, hlo, hhi⟩

/-- The calls of the second loop of `mapMemory` on the recording backend: one `MemMap` per
region, with its `Start` and the `uint64` difference `End - Start`. -/
theorem mapRegions_log (fresh : Nat) (merged : List models.Segment) (s : Logged) :
    (mapRegions (logBackend (fun _ => none) fresh) merged s).1.log
      = s.log ++ merged.map (fun r => Op.memMap r.Start (sub64 r.End r.Start)) := by
  induction merged generalizing s with
  | nil => simp [mapRegions]
  | cons r rest ih =>
    have hstep : mapRegions (logBackend (fun _ => none) fresh) (r :: rest) s
        = mapRegions (logBackend (fun _ => none) fresh) rest
            { s with log := s.log ++ [Op.memMap r.Start (sub64 r.End r.Start)] } := by
      simp [mapRegions, logBackend]
    rw [hstep, ih]
    simp

/-- C1: for every ordered list of segments whose `Addr + len(Data)` does not overflow 64 bits,
with `align` returning a span `(start, size)` of the 64-bit address space that contains
`[Addr, Addr + len(Data))`, `Overlaps` being interval intersection and `Merge` extending a
region to the union of both spans, every segment's range is contained in a region of the
final merged list, taken as the range `Start, End - Start` that line 146 passes to `MemMap`
for it; and `MemMap` is called with that range. -/
theorem mapMemory_covers_segments (align : Nat → Nat → Bool → Nat × Nat)
    (segments : List loader.Segment)
    (hal : ∀ seg ∈ segments,
      seg.Addr + seg.Data.length < u64 ∧
      (align seg.Addr seg.Data.length true).2 < u64 ∧
      (align seg.Addr seg.Data.length true).1 ≤ seg.Addr ∧
      seg.Addr + seg.Data.length
        ≤ (align seg.Addr seg.Data.length true).1 + (align seg.Addr seg.Data.length true).2 ∧
      (align seg.Addr seg.Data.length true).1 + (align seg.Addr seg.Data.length true).2 ≤ u64) :
    ∀ seg ∈ segments, ∃ r ∈ mergeSegments align segments,
      r.Start ≤ seg.Addr ∧ seg.Addr + seg.Data.length ≤ r.Start + sub64 r.End r.Start ∧
      ∀ (fresh : Nat) (s : Logged),
        Op.memMap r.Start (sub64 r.End r.Start)
          ∈ (mapRegions (logBackend (fun _ => none) fresh) (mergeSegments align segments)
              s).1.log := by
  intro seg hseg
  have hplain : ∀ t ∈ segments,
      Plain { Start := (align t.Addr t.Data.length true).1,
              End := add64 (align t.Addr t.Data.length true).1
                (align t.Addr t.Data.length true).2 } := by
    intro t ht
    obtain ⟨h1, h2, h3, _, h5⟩ := hal t ht
    exact (span_region (by omega) h2 h5).1
  obtain ⟨h1, h2, h3, h4, h5⟩ := hal seg hseg
  have hcov : Covered (mergeSegments align segments) seg.Addr (seg.Addr + seg.Data.length) := by
    unfold mergeSegments
    apply mergeSegments_fold_covered align segments [] _ _ (by simp) hplain
    right
    refine ⟨seg, hseg, h3, ?_⟩
    rw [(span_region (by omega) h2 h5).2]
    exact h4
  obtain ⟨r, hr, hlo, hhi⟩ := hcov
  refine ⟨r, hr, hlo, hhi, ?_⟩
  intro fresh s
  rw [mapRegions_log]
  apply List.mem_append_right
  exact List.mem_map.2 ⟨r, hr, rfl⟩

/-- Witness of C1: two overlapping segments and a segment in the last page of the address
space, aligned on pages of `0x1000` bytes.  The last region has `End = 0`, and `MemMap` gets
the `0x1000` bytes from `2 ^ 64 - 0x1000` on for it. -/
theorem mapMemory_covers_segments_witness :
    (mergeSegments (alignPage 0x1000) (twoSegments ++ [topSegment])
      = [{ Start := 0x400000, End := 0x401000 }, { Start := u64 - 0x1000, End := 0 }] ∧
     sub64 0 (u64 - 0x1000) = 0x1000) ∧
    ∀ seg ∈ twoSegments ++ [topSegment],
      ∃ r ∈ mergeSegments (alignPage 0x1000) (twoSegments ++ [topSegment]),
        r.Start ≤ seg.Addr ∧ seg.Addr + seg.Data.length ≤ r.Start + sub64 r.End r.Start ∧
        ∀ (fresh : Nat) (s : Logged),
          Op.memMap r.Start (sub64 r.End r.Start)
            ∈ (mapRegions (logBackend (fun _ => none) fresh)
                (mergeSegments (alignPage 0x1000) (twoSegments ++ [topSegment])) s).1.log :=
  ⟨by decide,
    mapMemory_covers_segments (alignPage 0x1000) (twoSegments ++ [topSegment]) (by decide)⟩

/-- C2: on `chainSegments` the first two spans do not overlap and become two regions; the
third span `[0x400000, 0x402000)` overlaps the first region and is merged into it, and the
grown first region is not compared with the second: the merged list holds two distinct
regions that overlap, and both are handed to `MemMap`. -/
theorem mapMemory_chain_leaves_overlap :
    mergeSegments (alignPage 0x1000) chainSegments
      = [{ Start := 0x400000, End := 0x402000 }, { Start := 0x401000, End := 0x402000 }] ∧
    models.Segment.Overlaps { Start := 0x400000, End := 0x402000 }
      { Start := 0x401000, End := 0x402000 } = true ∧
    (mapRegions (logBackend (fun _ => none) 0x10000)
        (mergeSegments (alignPage 0x1000) chainSegments) { log := [], sp := 0 }).1.log
      = [Op.memMap 0x400000 0x2000, Op.memMap 0x401000 0x1000] := by
  decide

/-! ## `pushStrings`: the argument-string buffer -/

theorem packedSize_nil : packedSize [] = 0 := rfl

theorem packedSize_cons (a : List Nat) (l : List (List Nat)) :
    packedSize (a :: l) = (a.length + 1) + packedSize l := by
  simp [packedSize]

theorem packedSize_append (l₁ l₂ : List (List Nat)) :
    packedSize (l₁ ++ l₂) = packedSize l₁ + packedSize l₂ := by
  simp [packedSize, List.sum_append]

theorem packedSize_reverse (l : List (List Nat)) : packedSize l.reverse = packedSize l := by
  simp [packedSize, List.sum_reverse]

theorem packed_cons (a : List Nat) (l : List (List Nat)) :
    packed (a :: l) = a ++ [0] ++ packed l := by
  simp [packed]

theorem packed_append (l₁ l₂ : List (List Nat)) :
    packed (l₁ ++ l₂) = packed l₁ ++ packed l₂ := by
  simp [packed]

theorem packed_length (l : List (List Nat)) : (packed l).length = packedSize l := by
  induction l with
  | nil => rfl
  | cons a l ih =>
    rw [packed_cons, packedSize_cons]
    simp only [List.length_append, List.length_cons, List.length_nil, ih]

theorem argvSize_fold (args : List (List Nat)) (n : Nat) :
    args.foldl (fun n v => n + (v.length + 1)) n = n + packedSize args := by
  induction args generalizing n with
  | nil => simp [packedSize]
  | cons a l ih =>
    rw [List.foldl_cons, ih, packedSize_cons]
    omega

theorem argvSize_eq (args : List (List Nat)) : argvSize args = packedSize args := by
  unfold argvSize
  rw [argvSize_fold]
  omega

/-- `copy` of a string into the zero bytes behind what has been packed so far. -/
theorem copyAt_zeros (pre arg : List Nat) (k : Nat) (hk : arg.length + 1 ≤ k) :
    copyAt (pre ++ List.replicate k 0) pre.length arg
      = pre ++ (arg ++ [0]) ++ List.replicate (k - (arg.length + 1)) 0 := by
  unfold copyAt
  have h1 : (pre ++ List.replicate k 0).take pre.length = pre := List.take_left _ _
  have h2 : (pre ++ List.replicate k 0).length - pre.length = k := by simp
  have h3 : arg.take k = arg := List.take_of_length_le (by omega)
  have h4 : (pre ++ List.replicate k 0).drop (pre.length + arg.length)
      = List.replicate (k - arg.length) 0 := by
    rw [List.drop_append, List.drop_replicate]
  have h5 : k - arg.length = (k - (arg.length + 1)) + 1 := by omega
  rw [h1, h2, h3, h4, h5, List.replicate_succ]
  simp

/-- The second loop of `pushStrings`, from a buffer whose unpacked part is zero. -/
theorem packArgs_fold (base : Nat) (l : List (List Nat)) (pre addrs : List Nat) (k : Nat)
    (hk : packedSize l ≤ k) :
    l.foldl
        (fun (st : Packing) arg =>
          { buf := copyAt st.buf st.pos arg,
            addrs := st.addrs ++ [add64 base st.pos],
            pos := st.pos + (arg.length + 1) })
        { buf := pre ++ List.replicate k 0, addrs := addrs, pos := pre.length }
      = { buf := pre ++ packed l ++ List.replicate (k - packedSize l) 0,
          addrs := addrs ++ packedAddrs base pre.length l,
          pos := pre.length + packedSize l } := by
  induction l generalizing pre addrs k with
  | nil => simp [packed, packedSize, packedAddrs]
  | cons a l ih =>
    rw [packedSize_cons] at hk
    rw [List.foldl_cons]
    simp only
    rw [copyAt_zeros pre a k (by omega)]
    have hlen : pre.length + (a.length + 1) = (pre ++ (a ++ [0])).length := by simp
    rw [hlen, ih (pre ++ (a ++ [0])) (addrs ++ [add64 base pre.length]) (k - (a.length + 1))
      (by omega)]
    rw [packed_cons, packedSize_cons]
    simp only [packedAddrs, List.append_assoc, List.length_append, List.length_cons,
      List.length_nil, List.singleton_append, Packing.mk.injEq]
    refine ⟨?_, ?_, by omega⟩
    · congr 4
      omega
    · trivial

/-- The buffer and the addresses that `pushStrings` computes: the strings are packed in
reverse order. -/
theorem packArgs_eq (base : Nat) (args : List (List Nat)) :
    packArgs base args
      = { buf := packed args.reverse,
          addrs := packedAddrs base 0 args.reverse,
          pos := packedSize args } := by
  unfold packArgs
  have h := packArgs_fold base args.reverse [] [] (argvSize args)
    (by rw [argvSize_eq, packedSize_reverse])
  simp only [List.nil_append, List.length_nil, Nat.zero_add] at h
  rw [h, argvSize_eq, packedSize_reverse]
  simp

/-- In the reversed packing the string `args[i]` sits behind the strings that follow it. -/
theorem packed_reverse_drop (args : List (List Nat)) (i : Nat) (h : i < args.length) :
    (packed args.reverse).drop (packedSize (args.drop (i + 1)))
      = args[i] ++ [0] ++ packed (args.take i).reverse := by
  have hsplit : args = args.take i ++ args[i] :: args.drop (i + 1) := by
    rw [List.getElem_cons_drop, List.take_append_drop]
  have hrev : args.reverse
      = (args.drop (i + 1)).reverse ++ ([args[i]] ++ (args.take i).reverse) := by
    conv_lhs => rw [hsplit]
    simp
  rw [hrev, packed_append, packed_append]
  have hl : (packed (args.drop (i + 1)).reverse).length = packedSize (args.drop (i + 1)) := by
    rw [packed_length, packedSize_reverse]
  rw [← hl, List.drop_left]
  simp [packed]

/-- C7, as the code has it: the buffer that `pushStrings` writes to the argv region has length
`sum(len(arg) + 1)`, and the strings are packed from last to first at increasing offsets:
`args[i]` starts at offset `sum over j > i of (len(args[j]) + 1)` and is immediately followed
by a NUL byte.  The last part shows the calls `pushStrings` makes on the recording backend:
that buffer is the one written at the address `Mmap` returned. -/
theorem pushStrings_buffer_layout (argvAddr : Nat) (args : List (List Nat)) :
    (packArgs argvAddr args).buf.length = (args.map (fun a => a.length + 1)).sum ∧
    (∀ (i : Nat) (h : i < args.length),
      ((packArgs argvAddr args).buf.drop
          ((args.drop (i + 1)).map (fun a => a.length + 1)).sum).take (args[i].length + 1)
        = args[i] ++ [0]) ∧
    (∀ s : Logged, ∃ rest,
      (pushStrings (logBackend (fun _ => none) argvAddr) args s).1.log
        = s.log ++ [Op.mmap 0 (args.map (fun a => a.length + 1)).sum,
            Op.memWrite argvAddr (packArgs argvAddr args).buf] ++ rest) := by
  refine ⟨?_, ?_, ?_⟩
  · rw [packArgs_eq]
    simp only
    rw [packed_length, packedSize_reverse]
    rfl
  · intro i h
    rw [packArgs_eq]
    simp only
    have := packed_reverse_drop args i h
    unfold packedSize at this
    rw [this]
    exact List.take_left' (by simp)
  · intro s
    refine ⟨Op.push 0 :: ((packArgs argvAddr args).addrs.map Op.push), ?_⟩
    have hpush : ∀ (vs : List Nat) (t : Logged),
        (pushAll (logBackend (fun _ => none) argvAddr) vs t).log = t.log ++ vs.map Op.push := by
      intro vs
      induction vs with
      | nil => intro t; simp [pushAll]
      | cons v vs ih =>
        intro t
        have := ih ((logBackend (fun _ => none) argvAddr).Push v t).1
        simp only [pushAll, List.foldl_cons] at this ⊢
        rw [this]
        simp [logBackend]
    have hsize : argvSize args = (args.map (fun a => a.length + 1)).sum := argvSize_eq args
    simp only [pushStrings, logBackend, if_true, hsize]
    have h2 := hpush (packArgs argvAddr args).addrs
      { log := s.log ++ [Op.mmap 0 (args.map (fun a => a.length + 1)).sum]
          ++ [Op.memWrite argvAddr (packArgs argvAddr args).buf] ++ [Op.push 0],
        sp := sub64 s.sp 8 }
    simp only [logBackend] at h2
    rw [h2]
    simp

/-- Witness of C7: the arguments `"a"` and `"bb"`; `"a"` starts at offset 3. -/
theorem pushStrings_buffer_layout_witness :
    ((packArgs 0x10000 [[97], [98, 98]]).buf.drop 3).take 2 = [97] ++ [0] :=
  (pushStrings_buffer_layout 0x10000 [[97], [98, 98]]).2.1 0 (by decide)

/-- C7 as stated fails: for the arguments `"a"` and `"bb"` the buffer is `"bb\0a\0"`; the first
argument does not start at offset 0, where first-to-last packing puts it. -/
theorem pushStrings_buffer_not_first_to_last :
    (packArgs 0x10000 [[97], [98, 98]]).buf = [98, 98, 0, 97, 0] ∧
    (([] : List (List Nat)).map (fun a => a.length + 1)).sum = 0 ∧
    ¬ (((packArgs 0x10000 [[97], [98, 98]]).buf.drop 0).take 2 = [97] ++ [0]) := by
  decide

/-! ## Byte memory -/

theorem memRead_length (m : Nat → Nat) (a n : Nat) : (memRead m a n).length = n := by
  simp [memRead]

theorem memRead_congr {m m' : Nat → Nat} {a n : Nat}
    (h : ∀ x, a ≤ x → x < a + n → m x = m' x) : memRead m a n = memRead m' a n := by
  unfold memRead
  apply List.map_congr_left
  intro i hi
  rw [List.mem_range] at hi
  exact h (a + i) (by omega) (by omega)

theorem memWrite_outside (m : Nat → Nat) (a : Nat) (d : List Nat) (x : Nat)
    (h : x < a ∨ a + d.length ≤ x) : memWrite m a d x = m x := by
  unfold memWrite
  rw [if_neg]
  omega

theorem memRead_memWrite_sub (m : Nat → Nat) (a : Nat) (d : List Nat) (off n : Nat)
    (h : off + n ≤ d.length) :
    memRead (memWrite m a d) (a + off) n = (d.drop off).take n := by
  apply List.ext_getElem
  · rw [memRead_length, List.length_take, List.length_drop]
    omega
  · intro i h1 h2
    rw [memRead_length] at h1
    simp only [memRead, List.getElem_map, List.getElem_range, List.getElem_take,
      List.getElem_drop]
    unfold memWrite
    rw [if_pos (by omega)]
    have hidx : a + off + i - a = off + i := by omega
    rw [hidx, List.getD_eq_getElem _ _ (by omega)]

theorem memRead_memWrite_self (m : Nat → Nat) (a : Nat) (d : List Nat) :
    memRead (memWrite m a d) a d.length = d := by
  have := memRead_memWrite_sub m a d 0 d.length (by omega)
  simpa using this

/-! ## Pushing words on the backend on which every operation succeeds -/

theorem pushAll_cons {σ : Type} (B : Unicorn σ) (v : Nat) (vs : List Nat) (s : σ) :
    pushAll B (v :: vs) s = pushAll B vs (B.Push v s).1 := rfl

theorem pushAll_append_singleton {σ : Type} (B : Unicorn σ) (vs : List Nat) (v : Nat) (s : σ) :
    pushAll B (vs ++ [v]) s = (B.Push v (pushAll B vs s)).1 := by
  simp [pushAll, List.foldl_append]

/-- Pushing the words `vs`: the stack pointer goes down by one word each, memory outside the
pushed words is untouched, and the `k`-th word pushed lies `k + 1` words below the old stack
pointer. -/
theorem pushAll_ok (w : Nat) (pack : Nat → List Nat) (fresh : Nat)
    (hpack : ∀ v, (pack v).length = w) (vs : List Nat) (s : Machine)
    (hsp : vs.length * w ≤ s.sp) (h64 : s.sp < u64) :
    (pushAll (okBackend w pack fresh) vs s).sp = s.sp - vs.length * w ∧
    (pushAll (okBackend w pack fresh) vs s).pushes = s.pushes + vs.length ∧
    (∀ x, x < s.sp - vs.length * w ∨ s.sp ≤ x →
      (pushAll (okBackend w pack fresh) vs s).mem x = s.mem x) ∧
    (∀ k v, vs[k]? = some v →
      memRead (pushAll (okBackend w pack fresh) vs s).mem (s.sp - (k + 1) * w) w = pack v) := by
  induction vs generalizing s with
  | nil =>
    refine ⟨by simp [pushAll], by simp [pushAll], fun x _ => by simp [pushAll], ?_⟩
    intro k v hk
    simp at hk
  | cons v0 vs ih =>
    rw [pushAll_cons]
    have hlen : (v0 :: vs).length * w = vs.length * w + w := by
      rw [List.length_cons, Nat.add_mul, Nat.one_mul]
    rw [hlen] at hsp ⊢
    have hsub : sub64 s.sp w = s.sp - w := sub64_of_le h64 (by omega)
    have hs1 : ((okBackend w pack fresh).Push v0 s).1
        = { sp := s.sp - w, mem := memWrite s.mem (s.sp - w) (pack v0),
            pushes := s.pushes + 1 } := by
      simp only [okBackend, hsub]
    rw [hs1]
    obtain ⟨ihsp, ihp, ihframe, ihread⟩ :=
      ih { sp := s.sp - w, mem := memWrite s.mem (s.sp - w) (pack v0), pushes := s.pushes + 1 }
        (by simp only; omega) (by simp only; omega)
    simp only at ihsp ihp ihframe ihread
    refine ⟨by rw [ihsp]; omega, by rw [ihp, List.length_cons]; omega, ?_, ?_⟩
    · intro x hx
      rw [ihframe x (by omega), memWrite_outside]
      rw [hpack]
      omega
    · intro k v hk
      cases k with
      | zero =>
        simp only [List.getElem?_cons_zero, Option.some.injEq] at hk
        subst hk
        rw [Nat.zero_add, Nat.one_mul]
        rw [memRead_congr (fun x hx1 hx2 => ihframe x (Or.inr hx1))]
        have := memRead_memWrite_self s.mem (s.sp - w) (pack v0)
        rw [hpack] at this
        exact this
      | succ k =>
        simp only [List.getElem?_cons_succ] at hk
        have := ihread k v hk
        have hidx : s.sp - (k + 1 + 1) * w = s.sp - w - (k + 1) * w := by
          rw [Nat.add_mul (k + 1) 1 w, Nat.one_mul]
          omega
        rw [hidx]
        exact this

theorem packedAddrs_length (base pos : Nat) (l : List (List Nat)) :
    (packedAddrs base pos l).length = l.length := by
  induction l generalizing pos with
  | nil => rfl
  | cons a l ih => simp [packedAddrs, ih]

theorem packedAddrs_get (base pos : Nat) (l : List (List Nat)) (j : Nat)
    (h : j < l.length) :
    (packedAddrs base pos l)[j]? = some (add64 base (pos + packedSize (l.take j))) := by
  induction l generalizing pos j with
  | nil => simp at h
  | cons a l ih =>
    cases j with
    | zero => simp [packedAddrs, packedSize]
    | succ j =>
      simp only [packedAddrs, List.getElem?_cons_succ, List.take_succ_cons]
      rw [ih _ j (by simpa using h), packedSize_cons]
      congr 2
      omega

/-! ## The initial stack image -/

theorem packedSize_split (args : List (List Nat)) (i : Nat) (h : i < args.length) :
    packedSize args
      = packedSize (args.take i) + (args[i].length + 1) + packedSize (args.drop (i + 1)) := by
  have hsplit : args = args.take i ++ args[i] :: args.drop (i + 1) := by
    rw [List.getElem_cons_drop, List.take_append_drop]
  conv_lhs => rw [hsplit]
  rw [packedSize_append, packedSize_cons]
  omega

/-- The address recorded for `args[i]`: the buffer address plus the size of the strings that
follow `args[i]`. -/
theorem packArgs_addr (fresh : Nat) (args : List (List Nat)) (i : Nat) (h : i < args.length) :
    (packArgs fresh args).addrs[args.length - 1 - i]?
      = some (add64 fresh (packedSize (args.drop (i + 1)))) := by
  rw [packArgs_eq]
  simp only
  rw [packedAddrs_get fresh 0 args.reverse (args.length - 1 - i)
    (by rw [List.length_reverse]; omega)]
  rw [List.take_reverse, packedSize_reverse, Nat.zero_add]
  have : args.length - (args.length - 1 - i) = i + 1 := by omega
  rw [this]

/-- Lines 58 to 65 of `Run` on the backend on which every operation succeeds: one push, the
write of the buffer, and then the pushes of the terminator, the addresses and argc. -/
theorem pushArgs_ok_eq (w : Nat) (pack : Nat → List Nat) (fresh : Nat)
    (args : List (List Nat)) (s0 : Machine) :
    pushArgs (okBackend w pack fresh) args s0
      = (pushAll (okBackend w pack fresh) (0 :: (packArgs fresh args).addrs ++ [args.length])
          { sp := sub64 s0.sp w,
            mem := memWrite (memWrite s0.mem (sub64 s0.sp w) (pack 0)) fresh
              (packArgs fresh args).buf,
            pushes := s0.pushes + 1 }, none) := by
  rw [List.cons_append, pushAll_cons, pushAll_append_singleton]
  simp [pushArgs, pushStrings, okBackend]

/-- C3: on a backend on which every operation succeeds, where `Push` decrements the stack
pointer by the pointer width `w` and writes the word there, where the stack has room for
`n + 3` words and the argv region that `Mmap` returns lies in the address space apart from
these words, `Push(0); pushStrings(args); Push(n)` pushes `n + 3` words and leaves, reading
upward from the final stack pointer: the word `n`; then `n` pointers, the `i`-th of which is
the address in the argv buffer at which the bytes of `args[i]` followed by a NUL byte are
stored; then a zero word; then a zero word. -/
theorem Run_stack_layout (w : Nat) (pack : Nat → List Nat) (fresh : Nat)
    (args : List (List Nat)) (s0 : Machine)
    (hpack : ∀ v, (pack v).length = w)
    (hstack : (args.length + 3) * w ≤ s0.sp) (hsp : s0.sp < u64)
    (hbuf : fresh + packedSize args ≤ u64)
    (hdisj : fresh + packedSize args ≤ s0.sp - (args.length + 3) * w ∨ s0.sp ≤ fresh) :
    ∃ s, pushArgs (okBackend w pack fresh) args s0 = (s, none) ∧
      s.pushes = s0.pushes + (args.length + 3) ∧
      s.sp = s0.sp - (args.length + 3) * w ∧
      memRead s.mem s.sp w = pack args.length ∧
      (∀ (i : Nat) (h : i < args.length),
        memRead s.mem (s.sp + (i + 1) * w) w = pack (fresh + packedSize (args.drop (i + 1))) ∧
        fresh + packedSize (args.drop (i + 1)) + (args[i].length + 1)
          ≤ fresh + packedSize args ∧
        memRead s.mem (fresh + packedSize (args.drop (i + 1))) (args[i].length + 1)
          = args[i] ++ [0]) ∧
      memRead s.mem (s.sp + (args.length + 1) * w) w = pack 0 ∧
      memRead s.mem (s.sp + (args.length + 2) * w) w = pack 0 := by
  have h3 : (args.length + 3) * w = args.length * w + 3 * w := Nat.add_mul _ _ _
  have h2 : (args.length + 2) * w = args.length * w + 2 * w := Nat.add_mul _ _ _
  have h1 : (args.length + 1) * w = args.length * w + w := by rw [Nat.add_mul, Nat.one_mul]
  have hsub : sub64 s0.sp w = s0.sp - w := sub64_of_le hsp (by omega)
  have hbuflen : (packArgs fresh args).buf.length = packedSize args := by
    rw [packArgs_eq]
    simp only
    rw [packed_length, packedSize_reverse]
  have haddrs : (packArgs fresh args).addrs.length = args.length := by
    rw [packArgs_eq]
    simp only
    rw [packedAddrs_length, List.length_reverse]
  have hvslen : (0 :: (packArgs fresh args).addrs ++ [args.length]).length = args.length + 2 := by
    simp [haddrs]
  obtain ⟨fsp, fpushes, fframe, fread⟩ :=
    pushAll_ok w pack fresh hpack (0 :: (packArgs fresh args).addrs ++ [args.length])
      { sp := s0.sp - w,
        mem := memWrite (memWrite s0.mem (s0.sp - w) (pack 0)) fresh (packArgs fresh args).buf,
        pushes := s0.pushes + 1 }
      (by rw [hvslen]; simp only; omega) (by simp only; omega)
  rw [hvslen] at fsp fpushes fframe
  simp only at fsp fpushes fframe fread
  refine ⟨_, by rw [pushArgs_ok_eq, hsub], by rw [fpushes]; omega, by rw [fsp]; omega, ?_, ?_, ?_, ?_⟩
  · -- argc
    have hlast : (0 :: (packArgs fresh args).addrs ++ [args.length])[args.length + 1]?
        = some args.length := by
      rw [List.cons_append, List.getElem?_cons_succ,
        List.getElem?_append_right (by omega), haddrs]
      simp
    have := fread (args.length + 1) args.length hlast
    rw [fsp]
    have hidx : s0.sp - w - (args.length + 2) * w = s0.sp - w - (args.length + 1 + 1) * w := rfl
    rw [hidx]
    exact this
  · -- argv
    intro i h
    have hsplit := packedSize_split args i h
    have hno : fresh + packedSize (args.drop (i + 1)) < u64 := by omega
    refine ⟨?_, by omega, ?_⟩
    · have hptr : (0 :: (packArgs fresh args).addrs ++ [args.length])[args.length - 1 - i + 1]?
          = some (fresh + packedSize (args.drop (i + 1))) := by
        rw [List.cons_append, List.getElem?_cons_succ,
          List.getElem?_append_left (by omega), packArgs_addr fresh args i h, add64_of_lt hno]
      have := fread (args.length - 1 - i + 1) _ hptr
      have hk : (args.length - 1 - i + 1 + 1) * w + (i + 1) * w = (args.length + 2) * w := by
        rw [← Nat.add_mul]
        congr 1
        omega
      have hidx : s0.sp - w - (args.length + 2) * w + (i + 1) * w
          = s0.sp - w - (args.length - 1 - i + 1 + 1) * w := by
        omega
      rw [fsp, hidx]
      exact this
    · rw [memRead_congr (fun x hx1 hx2 => fframe x (by omega))]
      rw [memRead_memWrite_sub _ _ _ _ _ (by omega)]
      rw [packArgs_eq]
      simp only
      rw [packed_reverse_drop args i h]
      exact List.take_left' (by simp)
  · -- the terminator of argv
    have hfirst : (0 :: (packArgs fresh args).addrs ++ [args.length])[0]? = some 0 := by
      rw [List.cons_append, List.getElem?_cons_zero]
    have := fread 0 0 hfirst
    have hidx : s0.sp - w - (args.length + 2) * w + (args.length + 1) * w
        = s0.sp - w - (0 + 1) * w := by
      omega
    rw [fsp, hidx]
    exact this
  · -- the terminator of envp
    have hidx : s0.sp - w - (args.length + 2) * w + (args.length + 2) * w = s0.sp - w := by
      omega
    rw [fsp, hidx]
    rw [memRead_congr (fun x hx1 hx2 => fframe x (Or.inr hx1))]
    rw [memRead_congr (fun x hx1 hx2 =>
      memWrite_outside _ fresh (packArgs fresh args).buf x (by rw [hbuflen]; omega))]
    have := memRead_memWrite_self s0.mem (s0.sp - w) (pack 0)
    rw [hpack] at this
    exact this

/-- Witness of C3: the arguments `"a"` and `"bb"` on a 64-bit little-endian machine, with the
argv region at `0x10000`: five words are pushed, and from the stack pointer upward lie
argc = 2, the address `0x10003` of `"a\0"`, the address `0x10000` of `"bb\0"`, and two zero
words. -/
theorem Run_stack_layout_witness :
    ∃ s, pushArgs (okBackend 8 (packLE 8) 0x10000) [[97], [98, 98]] freshMachine = (s, none) ∧
      s.pushes = 5 ∧ s.sp = 0x807f0000 - 40 ∧
      memRead s.mem s.sp 8 = packLE 8 2 ∧
      memRead s.mem (s.sp + 8) 8 = packLE 8 0x10003 ∧
      memRead s.mem 0x10003 2 = [97, 0] ∧
      memRead s.mem (s.sp + 16) 8 = packLE 8 0x10000 ∧
      memRead s.mem 0x10000 3 = [98, 98, 0] ∧
      memRead s.mem (s.sp + 24) 8 = packLE 8 0 ∧
      memRead s.mem (s.sp + 32) 8 = packLE 8 0 := by
  obtain ⟨s, hs, hp, hsp, hargc, hargv, hnull, henvp⟩ :=
    Run_stack_layout 8 (packLE 8) 0x10000 [[97], [98, 98]] freshMachine
      (fun v => by simp [packLE]) (by decide) (by decide) (by decide) (by decide)
  obtain ⟨ha1, _, ha2⟩ := hargv 0 (by decide)
  obtain ⟨hb1, _, hb2⟩ := hargv 1 (by decide)
  exact ⟨s, hs, hp, hsp, hargc, ha1, ha2, hb1, hb2, hnull, henvp⟩

/-! ## `Run`: errors during stack construction -/

/-- C8: on a backend on which every `Push` fails and nothing else does, `Run` with the
arguments `"a"` and `"bb"` returns no error; after the first failed `Push` it goes on to
`Mmap`, `MemWrite` and four more `Push` calls, and then starts execution at the entry point.
The same holds when only the write of the argument-string buffer fails. -/
theorem Run_continues_after_push_error :
    (Run (logBackend pushFails 0x10000) (alignPage 0x1000) sampleUsercorn [[97], [98, 98]]).2
      = none ∧
    (Run (logBackend pushFails 0x10000) (alignPage 0x1000) sampleUsercorn
        [[97], [98, 98]]).1.uc.log
      = [Op.hookAdd Hook.memInvalid, Op.hookAdd Hook.intr, Op.hookAdd Hook.insnSyscall,
         Op.memMap 0x400000 0x1000, Op.memWrite 0x400000 (List.replicate 16 0x90),
         Op.mmap 0x7fff0000 0x800000, Op.regWriteSP 0x807f0000,
         Op.push 0, Op.mmap 0 5, Op.memWrite 0x10000 [98, 98, 0, 97, 0],
         Op.push 0, Op.push 0x10000, Op.push 0x10003, Op.push 2,
         Op.disas 0x400000 64, Op.regReadSP, Op.memReadInto 0 0x807f0000,
         Op.start 0x400000 0] ∧
    (Run (logBackend (argvWriteFails 0x10000) 0x10000) (alignPage 0x1000) sampleUsercorn
        [[97], [98, 98]]).2 = none ∧
    (Run (logBackend (argvWriteFails 0x10000) 0x10000) (alignPage 0x1000) sampleUsercorn
        [[97], [98, 98]]).1.uc.log
      = [Op.hookAdd Hook.memInvalid, Op.hookAdd Hook.intr, Op.hookAdd Hook.insnSyscall,
         Op.memMap 0x400000 0x1000, Op.memWrite 0x400000 (List.replicate 16 0x90),
         Op.mmap 0x7fff0000 0x800000, Op.regWriteSP 0x807f0000,
         Op.push 0, Op.mmap 0 5, Op.memWrite 0x10000 [98, 98, 0, 97, 0],
         Op.push 0, Op.push 0x10000, Op.push 0x10003, Op.push 2,
         Op.disas 0x400000 64, Op.regReadSP, Op.memReadInto 40 (0x807f0000 - 40),
         Op.start 0x400000 0] := by
  decide
